import Mathlib

/-!
Verification of the yt2rss Feed Assembly and Cache Merge Engine.

Shallow embedding of the current revision of the program
(`main.go` + `handler.go` + `cache.go` + the current `youtube.go`,
whose `YoutubeAPIService.Cache` field has type `*Cache` and therefore
pairs with `cache.go` and `main.go.openCache`).  Older revisions of
`youtube.go` present in the tree are not the compiled program and are
not embedded.

Items are modelled with the two fields the merge logic reads (`Id`,
`Created`); the remaining descriptive payload of `feeds.Item` is opaque
to every embedded operation.  bbolt buckets are modelled as association
lists of byte-string keys ordered bytewise, which is the interface the
code relies on (`Seek` to the first key at or after a target, `Prev`
walks toward smaller keys).  JSON (de)serialisation of items is
modelled as the identity round trip; no claim exercises a corrupt
record.  Go runtime panics (out-of-range indexing, nil pointer
dereference) are modelled by an explicit `Run.panic` outcome.
-/

/-- Byte strings, as Go `[]byte`: bbolt compares keys bytewise. -/
abbrev Bytes := List Nat

/-- Three-way comparison on naturals (explicit, to keep lemmas local). -/
def natCmp (a b : Nat) : Ordering :=
  if a < b then .lt else if b < a then .gt else .eq

/-- Bytewise three-way comparison, the order bbolt stores keys in
(`bytes.Compare`): shorter prefix sorts first. -/
def bytesCmp : Bytes → Bytes → Ordering
  | [], [] => .eq
  | [], _ :: _ => .lt
  | _ :: _, [] => .gt
  | a :: as, b :: bs => (natCmp a b).then (bytesCmp as bs)

/-- Strict bytewise order on keys. -/
def bytesLt (a b : Bytes) : Bool := decide (bytesCmp a b = Ordering.lt)

/-- Timestamp with the six fields Go renders in an RFC3339 UTC string
(`2006-01-02T15:04:05Z`).  YouTube `PublishedAt` values are UTC. -/
structure DateTime where
  year : Nat
  month : Nat
  day : Nat
  hour : Nat
  minute : Nat
  second : Nat
deriving DecidableEq, Repr

/-- The widths Go's RFC3339 rendering pads each field to: 4 digits for
the year, 2 for the rest.  Real calendar bounds are tighter; only the
digit widths matter for key ordering. -/
def validTime (t : DateTime) : Bool :=
  t.year ≤ 9999 && t.month ≤ 99 && t.day ≤ 99 &&
    t.hour ≤ 99 && t.minute ≤ 99 && t.second ≤ 99

/-- Chronological comparison: lexicographic on
(year, month, day, hour, minute, second). -/
def timeCmp (a b : DateTime) : Ordering :=
  (natCmp a.year b.year).then ((natCmp a.month b.month).then
    ((natCmp a.day b.day).then ((natCmp a.hour b.hour).then
      ((natCmp a.minute b.minute).then (natCmp a.second b.second)))))

/-- Strictly earlier in time. -/
def timeLt (a b : DateTime) : Bool := decide (timeCmp a b = Ordering.lt)

/-- Fixed-width zero-padded decimal rendering, most significant digit
first, as byte values (`0x30 + digit`). -/
def pad : Nat → Nat → Bytes
  | 0, _ => []
  | w + 1, n => pad w (n / 10) ++ [48 + n % 10]

/-- `Created.Format(time.RFC3339)` for a UTC time:
`YYYY-MM-DDTHH:MM:SSZ` as bytes (45 = hyphen, 84 = T, 58 = colon,
90 = Z). -/
def fmtRFC3339 (t : DateTime) : Bytes :=
  pad 4 t.year ++ [45] ++ pad 2 t.month ++ [45] ++ pad 2 t.day ++ [84] ++
    pad 2 t.hour ++ [58] ++ pad 2 t.minute ++ [58] ++ pad 2 t.second ++ [90]

/-- A feed item restricted to the fields the merge engine reads. -/
structure Item where
  id : Bytes
  created : DateTime
deriving DecidableEq, Repr

/-- The bbolt key of an item:
`fmt.Sprintf("%s-%s", item.Created.Format(time.RFC3339), item.Id)`
(cache.go `Put` / `HasItem`). -/
def cacheKey (it : Item) : Bytes := fmtRFC3339 it.created ++ [45] ++ it.id

section CmpLemmas

theorem natCmp_self (a : Nat) : natCmp a a = .eq := by
  simp [natCmp]

theorem natCmp_eq_iff {a b : Nat} : natCmp a b = .eq ↔ a = b := by
  unfold natCmp
  split
  · simp; omega
  · split <;> simp <;> omega

theorem natCmp_lt_iff {a b : Nat} : natCmp a b = .lt ↔ a < b := by
  unfold natCmp
  split
  · simp_all
  · split <;> simp <;> omega

theorem natCmp_gt_iff {a b : Nat} : natCmp a b = .gt ↔ b < a := by
  unfold natCmp
  split
  · simp; omega
  · split <;> simp <;> omega

theorem ordThen_assoc (a b c : Ordering) :
    (a.then b).then c = a.then (b.then c) := by
  cases a <;> rfl

theorem ordThen_eq_eq {a b : Ordering} :
    a.then b = .eq ↔ a = .eq ∧ b = .eq := by
  cases a <;> simp [Ordering.then]

theorem bytesCmp_self (a : Bytes) : bytesCmp a a = .eq := by
  induction a with
  | nil => rfl
  | cons x xs ih => simp [bytesCmp, natCmp_self, Ordering.then, ih]

theorem bytesCmp_eq_iff {a b : Bytes} : bytesCmp a b = .eq ↔ a = b := by
  induction a generalizing b with
  | nil => cases b <;> simp [bytesCmp]
  | cons x xs ih =>
    cases b with
    | nil => simp [bytesCmp]
    | cons y ys =>
      simp [bytesCmp, ordThen_eq_eq, natCmp_eq_iff, ih]

theorem bytesCmp_cons_same (c : Nat) (s t : Bytes) :
    bytesCmp (c :: s) (c :: t) = bytesCmp s t := by
  simp [bytesCmp, natCmp_self, Ordering.then]

theorem natCmp_divmod (n m : Nat) :
    (natCmp (n / 10) (m / 10)).then (natCmp (n % 10) (m % 10)) = natCmp n m := by
  rcases Nat.lt_trichotomy (n / 10) (m / 10) with h | h | h
  · rw [natCmp_lt_iff.mpr h, natCmp_lt_iff.mpr (show n < m by omega)]
    simp [Ordering.then]
  · rw [natCmp_eq_iff.mpr h]
    show natCmp (n % 10) (m % 10) = natCmp n m
    rcases Nat.lt_trichotomy (n % 10) (m % 10) with h2 | h2 | h2
    · rw [natCmp_lt_iff.mpr h2, natCmp_lt_iff.mpr (show n < m by omega)]
    · rw [natCmp_eq_iff.mpr h2, natCmp_eq_iff.mpr (show n = m by omega)]
    · rw [natCmp_gt_iff.mpr h2, natCmp_gt_iff.mpr (show m < n by omega)]
  · rw [natCmp_gt_iff.mpr h, natCmp_gt_iff.mpr (show m < n by omega)]
    simp [Ordering.then]

theorem natCmp_add_left (c a b : Nat) : natCmp (c + a) (c + b) = natCmp a b := by
  rcases Nat.lt_trichotomy a b with h | h | h
  · rw [natCmp_lt_iff.mpr h, natCmp_lt_iff.mpr (show c + a < c + b by omega)]
  · subst h; rw [natCmp_self, natCmp_self]
  · rw [natCmp_gt_iff.mpr h, natCmp_gt_iff.mpr (show c + b < c + a by omega)]

/-- Comparing two fixed-width zero-padded numbers (followed by
arbitrary suffixes) is deciding on the numbers first. -/
theorem pad_cmp (w : Nat) :
    ∀ (n m : Nat) (s t : Bytes), n < 10 ^ w → m < 10 ^ w →
      bytesCmp (pad w n ++ s) (pad w m ++ t) = (natCmp n m).then (bytesCmp s t) := by
  induction w with
  | zero =>
    intro n m s t hn hm
    interval_cases n
    interval_cases m
    simp [pad, natCmp_self, Ordering.then]
  | succ w ih =>
    intro n m s t hn hm
    have hn10 : n / 10 < 10 ^ w := by
      rw [Nat.div_lt_iff_lt_mul (by omega)]
      calc n < 10 ^ (w + 1) := hn
        _ = 10 ^ w * 10 := by ring
    have hm10 : m / 10 < 10 ^ w := by
      rw [Nat.div_lt_iff_lt_mul (by omega)]
      calc m < 10 ^ (w + 1) := hm
        _ = 10 ^ w * 10 := by ring
    show bytesCmp ((pad w (n / 10) ++ [48 + n % 10]) ++ s)
        ((pad w (m / 10) ++ [48 + m % 10]) ++ t) = _
    rw [List.append_assoc, List.append_assoc,
      ih (n / 10) (m / 10) _ _ hn10 hm10]
    show (natCmp (n / 10) (m / 10)).then
      (bytesCmp ((48 + n % 10) :: s) ((48 + m % 10) :: t)) = _
    rw [show bytesCmp ((48 + n % 10) :: s) ((48 + m % 10) :: t)
        = (natCmp (n % 10) (m % 10)).then (bytesCmp s t) by
      simp [bytesCmp, natCmp_add_left]]
    rw [← ordThen_assoc, natCmp_divmod]

/-- `validTime` unpacked. -/
theorem validTime_spec {t : DateTime} (h : validTime t = true) :
    t.year < 10 ^ 4 ∧ t.month < 10 ^ 2 ∧ t.day < 10 ^ 2 ∧
      t.hour < 10 ^ 2 ∧ t.minute < 10 ^ 2 ∧ t.second < 10 ^ 2 := by
  simp [validTime] at h
  norm_num
  omega

/-- Comparing two RFC3339 renderings (followed by arbitrary suffixes)
is the chronological comparison first. -/
theorem fmt_cmp {a b : DateTime} (s t : Bytes)
    (ha : validTime a = true) (hb : validTime b = true) :
    bytesCmp (fmtRFC3339 a ++ s) (fmtRFC3339 b ++ t)
      = (timeCmp a b).then (bytesCmp s t) := by
  obtain ⟨hy, hmo, hd, hh, hmi, hs⟩ := validTime_spec ha
  obtain ⟨hy2, hmo2, hd2, hh2, hmi2, hs2⟩ := validTime_spec hb
  unfold fmtRFC3339 timeCmp
  simp only [List.append_assoc, List.singleton_append, List.cons_append, List.nil_append]
  rw [pad_cmp 4 _ _ _ _ hy hy2, bytesCmp_cons_same,
    pad_cmp 2 _ _ _ _ hmo hmo2, bytesCmp_cons_same,
    pad_cmp 2 _ _ _ _ hd hd2, bytesCmp_cons_same,
    pad_cmp 2 _ _ _ _ hh hh2, bytesCmp_cons_same,
    pad_cmp 2 _ _ _ _ hmi hmi2, bytesCmp_cons_same,
    pad_cmp 2 _ _ _ _ hs hs2, bytesCmp_cons_same]
  simp [ordThen_assoc]

/-- The key comparison decomposes into time first, then id. -/
theorem cacheKey_cmp {a b : Item}
    (ha : validTime a.created = true) (hb : validTime b.created = true) :
    bytesCmp (cacheKey a) (cacheKey b)
      = (timeCmp a.created b.created).then (bytesCmp a.id b.id) := by
  unfold cacheKey
  simp only [List.append_assoc, List.singleton_append, List.cons_append, List.nil_append]
  rw [fmt_cmp _ _ ha hb, bytesCmp_cons_same]

theorem timeCmp_eq_iff {a b : DateTime} : timeCmp a b = .eq ↔ a = b := by
  unfold timeCmp
  simp only [ordThen_eq_eq, natCmp_eq_iff]
  constructor
  · rintro ⟨h1, h2, h3, h4, h5, h6⟩
    cases a; cases b; simp_all
  · rintro rfl; simp

theorem natCmp_swap (a b : Nat) : natCmp a b = (natCmp b a).swap := by
  rcases Nat.lt_trichotomy a b with h | h | h
  · rw [natCmp_lt_iff.mpr h, natCmp_gt_iff.mpr h]; rfl
  · subst h; rw [natCmp_self]; rfl
  · rw [natCmp_gt_iff.mpr h, natCmp_lt_iff.mpr h]; rfl

theorem ordThen_swap (a b : Ordering) : (a.then b).swap = a.swap.then b.swap := by
  cases a <;> rfl

theorem timeCmp_swap (a b : DateTime) : timeCmp a b = (timeCmp b a).swap := by
  unfold timeCmp
  rw [natCmp_swap a.year, natCmp_swap a.month, natCmp_swap a.day,
    natCmp_swap a.hour, natCmp_swap a.minute, natCmp_swap a.second]
  simp [ordThen_swap]

theorem timeCmp_gt_of_lt {a b : DateTime} (h : timeLt a b = true) :
    timeCmp b a = .gt := by
  have hlt : timeCmp a b = .lt := by simpa [timeLt] using h
  rw [timeCmp_swap, hlt]
  rfl

/-- A key strictly below some byte string stays strictly below any
extension of that byte string. -/
theorem bytesCmp_lt_extend {k u : Bytes} (s : Bytes)
    (h : bytesCmp k u = .lt) : bytesCmp k (u ++ s) = .lt := by
  induction k generalizing u with
  | nil =>
    cases u with
    | nil => simp [bytesCmp] at h
    | cons y ys => simp [bytesCmp]
  | cons x xs ih =>
    cases u with
    | nil => simp [bytesCmp] at h
    | cons y ys =>
      simp only [bytesCmp, List.cons_append] at h ⊢
      cases hxy : natCmp x y with
      | lt => simp [hxy, Ordering.then]
      | eq =>
        simp only [hxy, Ordering.then] at h ⊢
        exact ih h
      | gt => simp [hxy, Ordering.then] at h

theorem bytesLt_extend {k u : Bytes} (s : Bytes) (h : bytesLt k u = true) :
    bytesLt k (u ++ s) = true := by
  have h2 : bytesCmp k u = .lt := by simpa [bytesLt] using h
  simp [bytesLt, bytesCmp_lt_extend s h2]

end CmpLemmas

/-- One bbolt bucket (a collection's cache namespace).  `items` is the
association list of item records sorted strictly ascending by key, as
the b-tree keeps them.  `lastLimit` models the `last-limit` cell that
`cache.go` stores in the same bucket: its key (`l` = 0x6C) sorts above
every item key (those start with a year digit), so the descending item
walks of `Iter` never cross it and it can be carried separately;
`none` models an absent or unparseable cell (`strconv.Atoi` failing). -/
structure Bucket where
  lastLimit : Option Int
  items : List (Bytes × Item)
deriving DecidableEq, Repr

/-- The cache handle seen by the engine for one collection.
Outer `none`: the `*Cache` handle itself is nil (caching disabled, see
`main.go.openCache`).  Inner `none`: the DB is open but the
collection's bucket does not exist. -/
abbrev Cache := Option (Option Bucket)

/-- Outcome of running a piece of Go code: a normal value, an `error`
return, or a runtime panic (out-of-range index, nil dereference). -/
inductive Run (α : Type) where
  | ok (a : α)
  | err
  | panic
deriving DecidableEq, Repr

/-- Insertion into a key-sorted association list, replacing an existing
record with the same key: one `bbolt.Bucket.Put`. -/
def insertRec (k : Bytes) (v : Item) : List (Bytes × Item) → List (Bytes × Item)
  | [] => [(k, v)]
  | (k2, v2) :: rest =>
    match bytesCmp k k2 with
    | .lt => (k, v) :: (k2, v2) :: rest
    | .eq => (k, v) :: rest
    | .gt => (k2, v2) :: insertRec k v rest

/-- `Cache.HasItem` (cache.go:71): nil handle or missing bucket give
`false`; otherwise a point lookup of the item's key. -/
def HasItem (c : Cache) (it : Item) : Bool :=
  match c with
  | none => false
  | some none => false
  | some (some b) => (b.items.find? (fun kv => decide (kv.1 = cacheKey it))).isSome

/-- `Cache.Put` (cache.go:92): nil handle is a no-op; otherwise the
bucket is created if absent and every item is upserted under its key. -/
def Put (c : Cache) (its : List Item) : Cache :=
  match c with
  | none => none
  | some db =>
    let b0 := db.getD { lastLimit := none, items := [] }
    some (some (its.foldl
      (fun b it => { b with items := insertRec (cacheKey it) it b.items }) b0))

/-- `Cache.InvalidateCacheIfDirty` (cache.go:19).  Nil handle: no-op.
Missing bucket: the transaction returns before touching anything.
Existing bucket: if the stored `last-limit` is unparseable or smaller
than the request's limit the whole bucket is deleted; in every path
that reaches it, the bucket (freshly recreated if deleted) gets
`last-limit` set to the request's limit — including the clean path
where the old value was at least as large. -/
def InvalidateCacheIfDirty (c : Cache) (limit : Int) : Cache :=
  match c with
  | none => none
  | some none => some none
  | some (some b) =>
    match b.lastLimit with
    | none => some (some { lastLimit := some limit, items := [] })
    | some ll =>
      if ll < limit then some (some { lastLimit := some limit, items := [] })
      else some (some { b with lastLimit := some limit })

/-- `Cache.UpdateMaxLimit` (cache.go:48): nil handle or missing bucket
are no-ops; otherwise `last-limit` becomes the max of the stored value
(0 if unparseable) and the request's limit. -/
def UpdateMaxLimit (c : Cache) (limit : Int) : Cache :=
  match c with
  | none => none
  | some none => some none
  | some (some b) =>
    some (some { b with lastLimit := some (max (b.lastLimit.getD 0) limit) })

/-- The item sequence produced by one full cursor walk of
`Cache.Iter(playlistId, after)` over an existing bucket (cache.go:118):
`Seek` positions at the first key at or after `after` (or past the
end), the `Prev` loop then yields exactly the records whose key is
strictly below `after`, newest first. -/
def bucketIter (b : Bucket) (after : Bytes) : List Item :=
  ((b.items.filter (fun kv => bytesLt kv.1 after)).reverse).map (fun kv => kv.2)

/-- Consuming `take(n, c.Iter(playlistId, after))`.  `take` returns
before touching the sequence when `n ≤ 0`.  Otherwise the first pull
runs the closure body: with a nil `*Cache` handle, `c.View` dereferences
the nil embedded `*bbolt.DB` — a runtime panic; with a missing bucket,
`tx.Bucket(...)` is nil and `.Cursor()` on the nil `*Bucket`
dereferences `b.tx` — also a panic (the `if b == nil` guard in the
source tests the cursor, which is never nil, not the bucket). -/
def Iter (c : Cache) (after : Bytes) (n : Int) : Run (List Item) :=
  if n ≤ 0 then .ok []
  else
    match c with
    | none => .panic
    | some none => .panic
    | some (some b) => .ok ((bucketIter b after).take n.toNat)

/-- One element of the live remote sequence as the merge loop sees it:
either a mapped item, or an error (a failed page request surfaced by
`allPlaylistItems` as a final `(nil, err)` yield, or a
`mapToFeedItem` failure — both make `videos` return the error). -/
abbrev RemoteEv := Except Unit Item

/-- The live-phase loop of `videos` (youtube.go current revision,
lines 123–135), on the (already `take`-bounded) event sequence: an
error event aborts; an item is appended to the result first and the
loop breaks afterwards if `HasItem` says the cache already holds it
(the pivot). -/
def liveLoop (c : Cache) : List RemoteEv → List Item → Run (List Item)
  | [], acc => .ok acc
  | .error _ :: _, _ => .err
  | .ok it :: rest, acc =>
    if HasItem c it then .ok (acc ++ [it]) else liveLoop c rest (acc ++ [it])

/-- The elements `take(n, seq)` lets through when the consumer never
stops early: nothing for `n ≤ 0`, else at most the first `n`. -/
def takeEvents (n : Int) (evs : List RemoteEv) : List RemoteEv :=
  if n ≤ 0 then [] else evs.take n.toNat

/-- `videos` (youtube.go current revision, lines 115–146), the merge
engine `AssembleFeed`.  The remote collection is `remote` (newest
first); `remoteErr` records whether the remote listing fails after
producing those items.  Returns the outcome paired with the final
cache state.  `videos[len(videos)-1]` on an empty live result is an
out-of-range panic, reached after `Put` has already run. -/
def videos (c : Cache) (limit : Int) (remote : List Item) (remoteErr : Bool) :
    Run (List Item) × Cache :=
  let c1 := InvalidateCacheIfDirty c limit
  let stream := remote.map Except.ok ++ (if remoteErr then [Except.error ()] else [])
  match liveLoop c1 (takeEvents limit stream) [] with
  | .err => (.err, c1)
  | .panic => (.panic, c1)
  | .ok vids =>
    let c2 := Put c1 vids
    match vids.getLast? with
    | none => (.panic, c2)
    | some last =>
      match Iter c2 (fmtRFC3339 last.created) (max 0 (limit - vids.length)) with
      | .panic => (.panic, c2)
      | .err => (.err, c2)
      | .ok fall => (.ok (vids ++ fall), UpdateMaxLimit c2 limit)

/-- Loop body of the generic `take` adapter (youtube.go current
revision, lines 226–242) over a list source, instrumented: `n` is the
remaining budget (`take` is only entered with `n ≥ 1`), `budget` is how
many elements the downstream consumer still accepts before its loop
body breaks (`none`: it never stops early).  Each loop iteration pulls
one element from the source, yields it, and stops when the consumer
broke or when `counter` reaches the cap — without pulling further.
Returns the yielded elements and the number of elements pulled. -/
def decBudget : Option Nat → Option Nat
  | none => none
  | some 0 => some 0
  | some (m + 1) => some m

def takeRun {α : Type} : List α → Nat → Option Nat → List α × Nat
  | [], _, _ => ([], 0)
  | x :: xs, n, b =>
    match b with
    | some 0 => ([x], 1)
    | _ =>
      if n ≤ 1 then ([x], 1)
      else
        let r := takeRun xs (n - 1) (decBudget b)
        (x :: r.1, r.2 + 1)

/-- `take(n, seq)` (youtube.go current revision, lines 226–242): for
`n ≤ 0` it returns without touching the source at all; otherwise it
runs the bounded loop. -/
def take {α : Type} (n : Int) (budget : Option Nat) (src : List α) : List α × Nat :=
  if n ≤ 0 then ([], 0) else takeRun src n.toNat budget

/-- Go `strconv.Atoi` on the characters of a query parameter: optional
sign, at least one digit, nothing else, 64-bit range; `none` is the
error return.  The handler sees an absent parameter as the empty
string. -/
def digitsAcc : List Char → Nat → Option Nat
  | [], acc => some acc
  | c :: rest, acc =>
    if c.isDigit then digitsAcc rest (acc * 10 + (c.toNat - 48)) else none

def digitsVal : List Char → Option Nat
  | [] => none
  | cs => digitsAcc cs 0

def goAtoi (cs : List Char) : Option Int :=
  match cs with
  | '+' :: rest =>
    (digitsVal rest).bind
      (fun n => if n ≤ 9223372036854775807 then some (n : Int) else none)
  | '-' :: rest =>
    (digitsVal rest).bind
      (fun n => if n ≤ 9223372036854775808 then some (-(n : Int)) else none)
  | _ =>
    (digitsVal cs).bind
      (fun n => if n ≤ 9223372036854775807 then some (n : Int) else none)

/-- The limit selection of `Server.channel` (handler.go:32–36):
`limit, err := strconv.Atoi(query.Get("limit")); if err != nil ||
limit == 0 { limit = s.Limit }`. -/
def channelLimit (raw : List Char) (serverLimit : Int) : Int :=
  match goAtoi raw with
  | none => serverLimit
  | some l => if l = 0 then serverLimit else l

/-- Sample timestamps and items for the concrete theorems (seconds
strictly decreasing: `itemA` newest). -/
def dtA : DateTime := ⟨2024, 5, 1, 12, 30, 3⟩

def dtB : DateTime := ⟨2024, 5, 1, 12, 30, 2⟩

def dtC : DateTime := ⟨2024, 5, 1, 12, 30, 1⟩

def itemA : Item := ⟨[97], dtA⟩

def itemB : Item := ⟨[98], dtB⟩

def itemC : Item := ⟨[99], dtC⟩

section TakeLemmas

theorem takeRun_pulls_le {α : Type} :
    ∀ (src : List α) (n : Nat) (b : Option Nat), 1 ≤ n →
      (takeRun src n b).2 ≤ min n src.length := by
  intro src
  induction src with
  | nil => intro n b _; simp [takeRun]
  | cons x xs ih =>
    intro n b h
    match b with
    | some 0 => simp [takeRun]; omega
    | none =>
      by_cases h1 : n ≤ 1
      · simp [takeRun, h1]; omega
      · have := ih (n - 1) none (by omega)
        simp only [takeRun, h1, if_false, decBudget, List.length_cons]
        omega
    | some (m + 1) =>
      by_cases h1 : n ≤ 1
      · simp [takeRun, h1]; omega
      · have := ih (n - 1) (some m) (by omega)
        simp only [takeRun, h1, if_false, decBudget, List.length_cons]
        omega

theorem takeRun_none_yield {α : Type} :
    ∀ (src : List α) (n : Nat), 1 ≤ n → (takeRun src n none).1 = src.take n := by
  intro src
  induction src with
  | nil => intro n _; simp [takeRun]
  | cons x xs ih =>
    intro n h
    by_cases h1 : n ≤ 1
    · have : n = 1 := by omega
      subst this
      simp [takeRun]
    · have := ih (n - 1) (by omega)
      simp only [takeRun, h1, if_false, decBudget]
      rw [show n = (n - 1) + 1 by omega]
      simp [List.take_succ_cons, this]

theorem takeRun_yield_prefix {α : Type} :
    ∀ (src : List α) (n : Nat) (b : Option Nat),
      (takeRun src n b).1 = src.take (takeRun src n b).2 := by
  intro src
  induction src with
  | nil => intro n b; simp [takeRun]
  | cons x xs ih =>
    intro n b
    match b with
    | some 0 => simp [takeRun]
    | none =>
      by_cases h1 : n ≤ 1
      · simp [takeRun, h1]
      · simp only [takeRun, h1, if_false, decBudget]
        simp [List.take_succ_cons, ih (n - 1) none]
    | some (m + 1) =>
      by_cases h1 : n ≤ 1
      · simp [takeRun, h1]
      · simp only [takeRun, h1, if_false, decBudget]
        simp [List.take_succ_cons, ih (n - 1) (some m)]

end TakeLemmas

/-- C8: for every bound `n` and source of length `M`, `take` pulls at
most `min(n, M)` elements from the source — never reading ahead of the
`n`-th element — whether the bound is reached, the consumer stops
early (any `budget`), or the source exhausts first; the yielded
elements are exactly the pulled prefix of the source, and with a
non-stopping consumer exactly the first `min(n, M)` elements in source
order. -/
theorem take_bounded_consumption {α : Type} (n : Int) (budget : Option Nat)
    (src : List α) :
    (take n budget src).2 ≤ min n.toNat src.length ∧
      (take n none src).1 = src.take n.toNat ∧
      (take n budget src).1 = src.take ((take n budget src).2) := by
  unfold take
  by_cases h : n ≤ 0
  · simp [h, Int.toNat_of_nonpos h]
  · have h1 : 1 ≤ n.toNat := by omega
    simp only [h, if_false]
    exact ⟨takeRun_pulls_le src n.toNat budget h1,
      takeRun_none_yield src n.toNat h1,
      takeRun_yield_prefix src n.toNat budget⟩

/-- C1: the claim says `AssembleFeed(C, 0)` and `AssembleFeed(C, L>0)`
on an empty remote collection return an empty list without error, the
fallback being skipped when the live phase collects nothing.  In the
code the continuation key `videos[len(videos)-1]` is computed without
any guard, so an empty live phase is an out-of-range panic, with or
without a cache handle. -/
theorem videos_empty_live_panics :
    (videos (some none) 0 [itemA, itemB] false).1 = Run.panic ∧
      (videos (some none) 3 [] false).1 = Run.panic ∧
      (videos none 0 [itemA, itemB] false).1 = Run.panic := by
  refine ⟨rfl, rfl, rfl⟩

/-- C3: the claim says a clean `resetIfStale` (metadata at least the
requested limit) leaves the stored `maxLimitSeen` unchanged.  In the
code the clean path keeps every record but still overwrites
`last-limit` with the (smaller) requested limit: from stored limit 5 a
request with limit 3 leaves the records and stores 3. -/
theorem invalidate_clean_path_overwrites_last_limit :
    InvalidateCacheIfDirty
        (some (some { lastLimit := some 5, items := [(cacheKey itemA, itemA)] })) 3
      = some (some { lastLimit := some 3, items := [(cacheKey itemA, itemA)] }) ∧
      ¬ ((3 : Int) = 5) := by
  refine ⟨rfl, by decide⟩

/-- C5: the claim says a nil cache handle makes `AssembleFeed(C, L)`
return the first `min(L, M)` remote items for every `L`.  That holds
only for `1 ≤ L ≤ M` (third conjunct); for `L > M` the fallback pulls
from `Cache.Iter` whose closure dereferences the nil handle (panic),
and for `L = 0` the continuation-key indexing panics. -/
theorem videos_nil_cache_panics :
    (videos none 2 [itemA] false).1 = Run.panic ∧
      (videos none 0 [itemA] false).1 = Run.panic ∧
      (videos none 1 [itemA] false).1 = Run.ok [itemA] := by
  refine ⟨rfl, rfl, rfl⟩

/-- C7: the claim says iteration over an absent collection namespace
behaves as an empty sequence instead of failing the caller.  In the
code `tx.Bucket(...).Cursor()` dereferences a nil `*Bucket` when the
bucket is missing (the nil test is on the cursor, not the bucket), and
a nil `*Cache` handle dereferences its nil embedded DB — both runtime
panics on the first pull.  The third conjunct shows the claimed
positioning on an existing bucket: seeking the newer time `dtA` yields
exactly the strictly older cached item. -/
theorem iter_missing_bucket_panics :
    Iter (some none) (fmtRFC3339 dtA) 1 = Run.panic ∧
      Iter none (fmtRFC3339 dtA) 1 = Run.panic ∧
      Iter (some (some { lastLimit := some 5, items := [(cacheKey itemB, itemB)] }))
          (fmtRFC3339 dtA) 1 = Run.ok [itemB] := by
  refine ⟨rfl, rfl, by decide⟩

/-- C10: a `limit` query parameter that is absent (empty string),
non-numeric, or `0` falls back to the server's configured default; any
other parsed integer — negative included — passes through unchanged,
and the engine sees limit 0 only if the server default itself is 0. -/
theorem channel_limit_selection (raw : List Char) (d : Int) :
    channelLimit [] d = d ∧
      (goAtoi raw = none → channelLimit raw d = d) ∧
      channelLimit ['0'] d = d ∧
      (∀ n : Int, goAtoi raw = some n → ¬ (n = 0) → channelLimit raw d = n) ∧
      (channelLimit raw d = 0 → d = 0) ∧
      channelLimit ['-', '5'] d = -5 := by
  refine ⟨rfl, ?_, by simp [channelLimit, goAtoi, digitsVal, digitsAcc], ?_, ?_, rfl⟩
  · intro h; simp [channelLimit, h]
  · intro n h hn; simp [channelLimit, h, hn]
  · cases hg : goAtoi raw with
    | none =>
      intro h
      have hc : channelLimit raw d = d := by simp [channelLimit, hg]
      rw [hc] at h
      exact h
    | some l =>
      intro h
      have hc : channelLimit raw d = if l = 0 then d else l := by
        simp [channelLimit, hg]
      rw [hc] at h
      by_cases hl : l = 0
      · rwa [if_pos hl] at h
      · rw [if_neg hl] at h
        exact absurd h hl

/-- C10 witness: concrete negative and positive pass-through. -/
theorem channel_limit_selection_witness :
    channelLimit ['-', '5'] 7 = -5 ∧ channelLimit ['4', '2'] 7 = 42 := by
  constructor
  · exact (channel_limit_selection ['-', '5'] 7).2.2.2.2.2
  · exact (channel_limit_selection ['4', '2'] 7).2.2.2.1 42 (by decide) (by decide)

theorem ordThen_lt_left (x : Ordering) : Ordering.lt.then x = .lt := by
  cases x <;> rfl

theorem ordThen_gt_left (x : Ordering) : Ordering.gt.then x = .gt := by
  cases x <;> rfl

theorem ordThen_eq_left (x : Ordering) : Ordering.eq.then x = x := by
  cases x <;> rfl

/-- C9: for items with RFC3339-representable timestamps, the bytewise
order of cache keys is exactly the chronological order of the items
(ties on the timestamp falling back to the bytewise id order embedded
in the key), so a descending key walk visits items newest first. -/
theorem cacheKey_order_matches_time_order {a b : Item}
    (ha : validTime a.created = true) (hb : validTime b.created = true) :
    (bytesLt (cacheKey a) (cacheKey b) = true ↔
      (timeLt a.created b.created = true ∨
        (a.created = b.created ∧ bytesLt a.id b.id = true))) := by
  simp only [bytesLt, timeLt, decide_eq_true_eq]
  rw [cacheKey_cmp ha hb]
  cases hc : timeCmp a.created b.created with
  | lt => rw [ordThen_lt_left]; simp
  | eq =>
    have heq : a.created = b.created := timeCmp_eq_iff.mp hc
    rw [ordThen_eq_left]
    simp [heq]
  | gt =>
    have hne : ¬ (a.created = b.created) := by
      intro e
      rw [timeCmp_eq_iff.mpr e] at hc
      exact absurd hc (by decide)
    rw [ordThen_gt_left]
    simp [hne]

/-- C9 witness: the key of the older `itemB` sorts strictly below the
key of the newer `itemA`. -/
theorem cacheKey_order_matches_time_order_witness :
    (bytesLt (cacheKey itemB) (cacheKey itemA) = true ↔
      (timeLt itemB.created itemA.created = true ∨
        (itemB.created = itemA.created ∧ bytesLt itemB.id itemA.id = true))) ∧
      timeLt itemB.created itemA.created = true :=
  ⟨cacheKey_order_matches_time_order (by decide) (by decide), by decide⟩

section LiveLoopLemmas

/-- When none of the items is in the cache, the live loop consumes the
whole (bounded) sequence and collects every item. -/
theorem liveLoop_no_pivot (c : Cache) :
    ∀ (xs : List Item) (acc : List Item),
      (∀ it ∈ xs, HasItem c it = false) →
      liveLoop c (xs.map Except.ok) acc = .ok (acc ++ xs) := by
  intro xs
  induction xs with
  | nil => intro acc _; simp [liveLoop]
  | cons x rest ih =>
    intro acc hnew
    have hx : HasItem c x = false := hnew x (by simp)
    simp only [List.map_cons, liveLoop, hx, Bool.false_eq_true, if_false]
    rw [ih (acc ++ [x]) (fun it hit => hnew it (by simp [hit]))]
    simp

/-- When none of the items is in the cache and the sequence ends with
an error event, the live loop aborts with the error. -/
theorem liveLoop_err_after (c : Cache) :
    ∀ (xs : List Item) (acc : List Item),
      (∀ it ∈ xs, HasItem c it = false) →
      liveLoop c (xs.map Except.ok ++ [Except.error ()]) acc = .err := by
  intro xs
  induction xs with
  | nil => intro acc _; simp [liveLoop]
  | cons x rest ih =>
    intro acc hnew
    have hx : HasItem c x = false := hnew x (by simp)
    simp only [List.map_cons, List.cons_append, liveLoop, hx,
      Bool.false_eq_true, if_false]
    exact ih (acc ++ [x]) (fun it hit => hnew it (by simp [hit]))

/-- The live loop stops right after appending the first cached item
(the pivot): it returns the accumulator extended with the items up to
and including the pivot. -/
theorem liveLoop_stops_at_pivot (c : Cache) :
    ∀ (xs : List Item) (p : Nat) (acc : List Item),
      (∀ (i : Nat) (x : Item), i < p → xs[i]? = some x → HasItem c x = false) →
      (∀ x : Item, xs[p]? = some x → HasItem c x = true) →
      p < xs.length →
      liveLoop c (xs.map Except.ok) acc = .ok (acc ++ xs.take (p + 1)) := by
  intro xs
  induction xs with
  | nil => intro p acc _ _ hp; simp at hp
  | cons x rest ih =>
    intro p acc hnew hpiv hp
    cases p with
    | zero =>
      have hx : HasItem c x = true := hpiv x (by simp)
      simp only [List.map_cons, liveLoop, hx, if_true]
      simp [List.take_succ_cons]
    | succ q =>
      have hx : HasItem c x = false := hnew 0 x (by omega) (by simp)
      simp only [List.map_cons, liveLoop, hx, Bool.false_eq_true, if_false]
      have hq : q < rest.length := by simpa using Nat.lt_of_succ_lt_succ hp
      rw [ih q (acc ++ [x])
        (fun i y hi hy => hnew (i + 1) y (by omega) (by simpa using hy))
        (fun y hy => hpiv y (by simpa using hy))
        hq]
      simp [List.take_succ_cons]

end LiveLoopLemmas

/-- C4: a remote error inside the live window makes the whole call
fail: `videos` returns the error, no collected item is returned, and
the cache is exactly the post-`resetIfStale` state — the partial live
batch is never persisted (`Put` runs only after a successful live
phase). -/
theorem remote_error_fails_whole_call (c : Cache) (remote : List Item) (L : Int)
    (hlen : (remote.length : Int) < L)
    (hnew : ∀ it ∈ remote, HasItem (InvalidateCacheIfDirty c L) it = false) :
    videos c L remote true = (Run.err, InvalidateCacheIfDirty c L) := by
  have hL0 : ¬ (L ≤ 0) := by omega
  have hTE : takeEvents L (remote.map Except.ok ++ [Except.error ()])
      = remote.map Except.ok ++ [Except.error ()] := by
    unfold takeEvents
    rw [if_neg hL0]
    apply List.take_of_length_le
    simp
    omega
  unfold videos
  simp only [if_true, hTE]
  rw [liveLoop_err_after (InvalidateCacheIfDirty c L) remote [] hnew]

/-- C4 witness: a one-item remote listing that then fails, under an
enabled cache with no bucket yet. -/
theorem remote_error_fails_whole_call_witness :
    videos (some none) 5 [itemA] true = (Run.err, some none) := by
  have h := remote_error_fails_whole_call (some none) [itemA] 5 (by decide)
    (by decide)
  exact h

/-- A cache whose bucket already holds the newest remote item
(`itemA`), with a stored limit large enough to survive invalidation. -/
def pivotCache : Cache :=
  some (some { lastLimit := some 5, items := [(cacheKey itemA, itemA)] })

/-- C2 counterexample: the claim says a yielded item found in the cache
(the pivot) is not added to the result via the live path.  With remote
`[itemA, itemB]` and `itemA` cached, the live loop appends the pivot
before the `HasItem` check fires, so the live-phase result is
`[itemA]`, and the full call returns the pivot exactly once — supplied
by the live path (the fallback contributes nothing here). -/
theorem pivot_emitted_by_live_phase_cex :
    HasItem pivotCache itemA = true ∧
      liveLoop pivotCache (takeEvents 2 ([itemA, itemB].map Except.ok)) []
        = Run.ok [itemA] ∧
      (videos pivotCache 2 [itemA, itemB] false).1 = Run.ok [itemA] := by
  refine ⟨by decide, by decide, by decide⟩

/-- C2 amended: when the live phase meets the first cached item (the
pivot) it appends the pivot to the result and stops immediately, so
the live result is exactly the new items followed by the pivot; the
fallback then iterates only keys strictly below the pivot's
continuation key — in particular strictly below the pivot's own cache
key — so it continues strictly older than the pivot and the pivot
appears exactly once, via the live path. -/
theorem pivot_live_emit_and_fallback_older (c : Cache) (its : List Item)
    (p : Nat) (L : Int) (hp : p < its.length)
    (hnew : ∀ (i : Nat) (x : Item), i < p → its[i]? = some x → HasItem c x = false)
    (hpiv : ∀ x : Item, its[p]? = some x → HasItem c x = true)
    (hwin : (p : Int) < L) :
    liveLoop c (takeEvents L (its.map Except.ok)) [] = Run.ok (its.take (p + 1)) ∧
      (∀ (b : Bucket) (kv : Bytes × Item) (piv : Item), kv ∈ b.items →
        its[p]? = some piv →
        bytesLt kv.1 (fmtRFC3339 piv.created) = true →
        bytesLt kv.1 (cacheKey piv) = true) := by
  constructor
  · have hL0 : ¬ (L ≤ 0) := by omega
    have hpn : p < L.toNat := by omega
    unfold takeEvents
    rw [if_neg hL0, ← List.map_take]
    have hplen : p < (its.take L.toNat).length := by
      simp [List.length_take]
      omega
    rw [liveLoop_stops_at_pivot c (its.take L.toNat) p []
      (fun i y hi hy => by
        rw [List.getElem?_take_of_lt (by omega)] at hy
        exact hnew i y hi hy)
      (fun y hy => by
        rw [List.getElem?_take_of_lt (by omega)] at hy
        exact hpiv y hy)
      hplen]
    rw [List.nil_append, List.take_take, Nat.min_eq_left (by omega)]
  · intro b kv piv _ _ hlt
    have hk : cacheKey piv = fmtRFC3339 piv.created ++ ([45] ++ piv.id) := by
      unfold cacheKey
      rw [List.append_assoc]
    rw [hk]
    exact bytesLt_extend _ hlt

/-- C2 amended witness: the concrete pivot scenario of the
counterexample, instantiating the general theorem at pivot index 0. -/
theorem pivot_live_emit_and_fallback_older_witness :
    liveLoop pivotCache (takeEvents 2 ([itemA, itemB].map Except.ok)) []
        = Run.ok ([itemA, itemB].take 1) ∧
      (∀ (b : Bucket) (kv : Bytes × Item) (piv : Item), kv ∈ b.items →
        [itemA, itemB][0]? = some piv →
        bytesLt kv.1 (fmtRFC3339 piv.created) = true →
        bytesLt kv.1 (cacheKey piv) = true) :=
  pivot_live_emit_and_fallback_older pivotCache [itemA, itemB] 0 2 (by decide)
    (fun i x hi _ => by omega) (fun x hx => by
      have hxa : itemA = x := by simpa using hx
      rw [← hxa]
      decide) (by decide)

section StoreLemmas

theorem timeLt_irrefl (t : DateTime) : timeLt t t = false := by
  simp [timeLt, timeCmp_eq_iff.mpr rfl]

/-- Point lookup characterised by key membership. -/
theorem HasItem_some_iff (b : Bucket) (it : Item) :
    HasItem (some (some b)) it = true ↔ ∃ kv ∈ b.items, kv.1 = cacheKey it := by
  simp [HasItem, List.find?_isSome]

/-- Items observed at different instants get different keys. -/
theorem cacheKey_ne_of_time_ne {a b : Item} (ha : validTime a.created = true)
    (hb : validTime b.created = true) (h : ¬ (a.created = b.created)) :
    ¬ (cacheKey a = cacheKey b) := by
  intro e
  have he := bytesCmp_eq_iff.mpr e
  rw [cacheKey_cmp ha hb] at he
  exact h (timeCmp_eq_iff.mp (ordThen_eq_eq.mp he).1)

/-- An item's full key is strictly below the bare RFC3339 rendering of
an instant exactly when the item is strictly older than that
instant. -/
theorem key_lt_fmt_iff {a : Item} {t : DateTime} (ha : validTime a.created = true)
    (ht : validTime t = true) :
    bytesLt (cacheKey a) (fmtRFC3339 t) = true ↔ timeLt a.created t = true := by
  have hcmp : bytesCmp (cacheKey a) (fmtRFC3339 t)
      = (timeCmp a.created t).then Ordering.gt := by
    conv_lhs => rw [show fmtRFC3339 t = fmtRFC3339 t ++ [] by simp]
    unfold cacheKey
    rw [List.append_assoc, fmt_cmp _ _ ha ht]
    rfl
  simp only [bytesLt, timeLt, decide_eq_true_eq, hcmp]
  cases hc : timeCmp a.created t with
  | lt => rw [ordThen_lt_left]
  | eq => rw [ordThen_eq_left]; simp
  | gt => rw [ordThen_gt_left]

/-- Upserting a record whose key fails a (key-only) filter does not
change the filtered view of the bucket. -/
theorem filter_insertRec (p : Bytes → Bool) (k : Bytes) (v : Item)
    (hk : p k = false) :
    ∀ l : List (Bytes × Item),
      (insertRec k v l).filter (fun kv => p kv.1) = l.filter (fun kv => p kv.1) := by
  intro l
  induction l with
  | nil => simp [insertRec, List.filter_cons, hk]
  | cons kv rest ih =>
    rcases kv with ⟨k2, v2⟩
    simp only [insertRec]
    cases hc : bytesCmp k k2 with
    | lt => simp [List.filter_cons, hk]
    | eq =>
      have hke : k = k2 := bytesCmp_eq_iff.mp hc
      subst hke
      simp [List.filter_cons, hk]
    | gt => simp [List.filter_cons, ih]

/-- Persisting a batch whose keys all fail a (key-only) filter does not
change the filtered view of the bucket. -/
theorem filter_put_fold (p : Bytes → Bool) :
    ∀ (vids : List Item) (b : Bucket),
      (∀ it ∈ vids, p (cacheKey it) = false) →
      ((vids.foldl
          (fun b it => { b with items := insertRec (cacheKey it) it b.items })
          b).items).filter (fun kv => p kv.1)
        = b.items.filter (fun kv => p kv.1) := by
  intro vids
  induction vids with
  | nil => intro b _; rfl
  | cons x xs ih =>
    intro b hall
    simp only [List.foldl_cons]
    rw [ih _ (fun it h => hall it (by simp [h]))]
    exact filter_insertRec p _ x (hall x (by simp)) b.items

/-- Consuming the fallback on an existing bucket never panics: it is
the bounded prefix of the descending walk (empty for a non-positive
bound). -/
theorem Iter_some (b : Bucket) (after : Bytes) (n : Int) :
    Iter (some (some b)) after n = .ok ((bucketIter b after).take n.toNat) := by
  unfold Iter
  split
  · rw [Int.toNat_of_nonpos (by assumption)]
    simp
  · rfl

end StoreLemmas

theorem timeLt_asymm {a b : DateTime} (h1 : timeLt a b = true)
    (h2 : timeLt b a = true) : False := by
  have hg := timeCmp_gt_of_lt h1
  simp only [timeLt, decide_eq_true_eq] at h2
  rw [hg] at h2
  cases h2

/-- Evaluation skeleton of `videos` for an error-free remote listing. -/
theorem videos_unfold (c : Cache) (limit : Int) (remote : List Item) :
    videos c limit remote false
      = match liveLoop (InvalidateCacheIfDirty c limit)
          (takeEvents limit (remote.map Except.ok)) [] with
        | .err => (.err, InvalidateCacheIfDirty c limit)
        | .panic => (.panic, InvalidateCacheIfDirty c limit)
        | .ok vids =>
          match vids.getLast? with
          | none => (.panic, Put (InvalidateCacheIfDirty c limit) vids)
          | some last =>
            match Iter (Put (InvalidateCacheIfDirty c limit) vids)
                (fmtRFC3339 last.created) (max 0 (limit - vids.length)) with
            | .panic => (.panic, Put (InvalidateCacheIfDirty c limit) vids)
            | .err => (.err, Put (InvalidateCacheIfDirty c limit) vids)
            | .ok fall => (.ok (vids ++ fall),
                UpdateMaxLimit (Put (InvalidateCacheIfDirty c limit) vids) limit) := by
  unfold videos
  simp

/-- The C6 scenario at K = 1, M = 2: remote `[itemA, itemB, itemC]`,
cache holding the pivot `itemB` and the older `itemC`. -/
def c6cache : Cache :=
  some (some
    { lastLimit := some 5,
      items := [(cacheKey itemC, itemC), (cacheKey itemB, itemB)] })

/-- An item sharing `itemB`'s timestamp with a bytewise larger id
(`z` = 122 > `b` = 98), newest-first remote order `[itemA, itemZ,
itemB]`. -/
def itemZ : Item := ⟨[122], dtB⟩

/-- The C6 tie scenario at K = 1, M = 2: the cache holds the pivot
`itemZ` and `itemB`, which shares the pivot's timestamp and sorts
below it by id. -/
def tieCache : Cache :=
  some (some
    { lastLimit := some 5,
      items := [(cacheKey itemB, itemB), (cacheKey itemZ, itemZ)] })

/-- C6 counterexample, in two parts.

Timestamp tie (K = 1, M = 2, L = 3): item `itemB` is cached, strictly
older than the pivot `itemZ` in collection order but tied with it on
`orderingTime`.  The fallback's continuation key is the bare RFC3339
timestamp of the pivot, every key of that same second sorts above it,
so the cursor walk skips the tied record: the call returns
`[itemA, itemZ]` where the claim promises items `[0..3)` =
`[itemA, itemZ, itemB]` — a gap, refuting "returns exactly items
[0..L) ... no gaps" as stated.

Attribution (K = 1, M = 2, L = 2, distinct timestamps): the live
phase collects `[itemA, itemB]` — the pivot included — not the
claimed `[0..K)` = `[itemA]`, refuting "items [0..K) obtained live
plus items [K..L) from the cache". -/
theorem pivot_scenario_cex :
    HasItem tieCache itemZ = true ∧
      HasItem tieCache itemA = false ∧
      (videos tieCache 3 [itemA, itemZ, itemB] false).1 = Run.ok [itemA, itemZ] ∧
      ¬ ((videos tieCache 3 [itemA, itemZ, itemB] false).1
        = Run.ok [itemA, itemZ, itemB]) ∧
      HasItem c6cache itemB = true ∧
      HasItem c6cache itemA = false ∧
      liveLoop c6cache (takeEvents 2 ([itemA, itemB, itemC].map Except.ok)) []
        = Run.ok [itemA, itemB] ∧
      ¬ ([itemA, itemB] = [itemA]) ∧
      (videos c6cache 2 [itemA, itemB, itemC] false).1 = Run.ok [itemA, itemB] := by
  refine ⟨by decide, by decide, by decide, by decide, by decide, by decide,
    by decide, by decide, by decide⟩

set_option maxHeartbeats 1000000 in
/-- C6 (amended): for a remote sequence with strictly decreasing
timestamps (newest first, no two items sharing an `orderingTime` —
without this the tie counterexample applies: the bare-timestamp
continuation key skips cached records tied with the pivot), where
items `[0..K)` are new, item `K` is the pivot, and the cache holds
items `[K..K+M)` (keys ascending, i.e. oldest first) with a stored
limit at least the requested one: for every `K < L ≤ K+M` the call
returns exactly items `[0..L)` — no duplicate ids, no gaps — the live
phase contributing items `[0..K]` (the new items plus the pivot) and
the cache fallback items `(K..L)`. -/
theorem pivot_scenario_returns_first_L (its : List Item) (K M L : Nat) (ll : Int)
    (hvalid : ∀ it ∈ its, validTime it.created = true)
    (hdesc : its.Pairwise (fun a b => timeLt b.created a.created = true))
    (hids : (its.map Item.id).Nodup)
    (hKL : K < L) (hLM : L ≤ K + M) (hlen : K + M ≤ its.length)
    (hll : (L : Int) ≤ ll) :
    (videos
        (some (some
          { lastLimit := some ll,
            items := (((its.drop K).take M).map
              (fun it => (cacheKey it, it))).reverse }))
        (L : Int) its false).1
      = Run.ok (its.take L) ∧
      liveLoop
          (some (some
            { lastLimit := some (L : Int),
              items := (((its.drop K).take M).map
                (fun it => (cacheKey it, it))).reverse }))
          (takeEvents (L : Int) (its.map Except.ok)) []
        = Run.ok (its.take (K + 1)) ∧
      ((its.take L).map Item.id).Nodup := by
  have hKlen : K < its.length := by omega
  have hM1 : 1 ≤ M := by omega
  set slice := (its.drop K).take M with hslice
  set pairs := (slice.map (fun it => (cacheKey it, it))).reverse with hpairs
  -- the pivot
  obtain ⟨piv, hpivEq⟩ : ∃ x, its[K]? = some x := by
    rw [List.getElem?_eq_getElem hKlen]
    exact ⟨_, rfl⟩
  -- indexed facts
  have hvalid_at : ∀ (j : Nat) (x : Item), its[j]? = some x →
      validTime x.created = true :=
    fun j x hx => hvalid x (List.getElem?_mem hx)
  have hdesc_at : ∀ (i j : Nat) (x y : Item), i < j → its[i]? = some x →
      its[j]? = some y → timeLt y.created x.created = true := by
    intro i j x y hij hx hy
    rw [List.getElem?_eq_some_iff] at hx hy
    obtain ⟨hi, rfl⟩ := hx
    obtain ⟨hj, rfl⟩ := hy
    exact List.pairwise_iff_getElem.mp hdesc i j hi hj hij
  -- membership structure of the cached pairs
  have hmem_pairs : ∀ kv : Bytes × Item, kv ∈ pairs →
      ∃ j : Nat, K ≤ j ∧ j < K + M ∧ its[j]? = some kv.2 ∧
        kv.1 = cacheKey kv.2 := by
    intro kv hkv
    rw [hpairs, List.mem_reverse, List.mem_map] at hkv
    obtain ⟨x, hx, rfl⟩ := hkv
    rw [hslice, List.mem_iff_getElem?] at hx
    obtain ⟨j, hj⟩ := hx
    rw [List.getElem?_take] at hj
    by_cases hjM : j < M
    · rw [if_pos hjM, List.getElem?_drop] at hj
      exact ⟨K + j, by omega, by omega, hj, rfl⟩
    · rw [if_neg hjM] at hj
      cases hj
  have hpiv_mem : (cacheKey piv, piv) ∈ pairs := by
    rw [hpairs, List.mem_reverse, List.mem_map]
    refine ⟨piv, ?_, rfl⟩
    rw [hslice, List.mem_iff_getElem?]
    refine ⟨0, ?_⟩
    rw [List.getElem?_take, if_pos (by omega), List.getElem?_drop]
    simpa using hpivEq
  -- HasItem on any bucket holding exactly the cached pairs
  have hnew_at : ∀ (llv : Option Int) (i : Nat) (x : Item), i < K →
      its[i]? = some x →
      HasItem (some (some { lastLimit := llv, items := pairs })) x = false := by
    intro llv i x hiK hx
    rw [Bool.eq_false_iff]
    intro htrue
    rw [HasItem_some_iff] at htrue
    obtain ⟨kv, hkv, hkey⟩ := htrue
    obtain ⟨j, hjK, hjKM, hjx, hkv1⟩ := hmem_pairs kv hkv
    have hlt := hdesc_at i j x kv.2 (by omega) hx hjx
    have hne : ¬ (kv.2.created = x.created) := by
      intro e
      rw [e] at hlt
      rw [timeLt_irrefl] at hlt
      cases hlt
    exact cacheKey_ne_of_time_ne (hvalid_at j kv.2 hjx) (hvalid_at i x hx) hne
      (hkv1.symm.trans hkey)
  have hpiv_has : ∀ (llv : Option Int) (x : Item), its[K]? = some x →
      HasItem (some (some { lastLimit := llv, items := pairs })) x = true := by
    intro llv x hx
    rw [hpivEq] at hx
    injection hx with hx
    subst hx
    rw [HasItem_some_iff]
    exact ⟨(cacheKey piv, piv), hpiv_mem, rfl⟩
  -- live phase
  have hlive : liveLoop
      (some (some { lastLimit := some (L : Int), items := pairs }))
      (takeEvents (L : Int) (its.map Except.ok)) []
      = Run.ok (its.take (K + 1)) := by
    have hL0 : ¬ ((L : Int) ≤ 0) := by omega
    unfold takeEvents
    rw [if_neg hL0, Int.toNat_natCast, ← List.map_take]
    have hplen : K < (its.take L).length := by
      simp [List.length_take]
      omega
    rw [liveLoop_stops_at_pivot _ (its.take L) K []
      (fun i y hi hy => by
        rw [List.getElem?_take_of_lt (by omega)] at hy
        exact hnew_at (some (L : Int)) i y hi hy)
      (fun y hy => by
        rw [List.getElem?_take_of_lt (by omega)] at hy
        exact hpiv_has (some (L : Int)) y hy)
      hplen]
    rw [List.nil_append, List.take_take, Nat.min_eq_left (by omega)]
  refine ⟨?_, hlive, ?_⟩
  · -- the full call
    have hinv : InvalidateCacheIfDirty
        (some (some { lastLimit := some ll, items := pairs })) (L : Int)
        = some (some { lastLimit := some (L : Int), items := pairs }) := by
      show (if ll < (L : Int)
          then some (some
            ({ lastLimit := some (L : Int), items := [] } : Bucket))
          else some (some ({ lastLimit := some (L : Int), items := pairs } : Bucket)))
        = some (some ({ lastLimit := some (L : Int), items := pairs } : Bucket))
      rw [if_neg (by omega : ¬ (ll < (L : Int)))]
    have hvidslen : (its.take (K + 1)).length = K + 1 := by
      rw [List.length_take]
      omega
    have hlast : (its.take (K + 1)).getLast? = some piv := by
      rw [List.getLast?_take, if_neg (by omega : ¬ (K + 1 = 0))]
      simpa using Or.inl hpivEq
    -- every persisted key fails the fallback filter
    have hfail : ∀ it ∈ its.take (K + 1),
        bytesLt (cacheKey it) (fmtRFC3339 piv.created) = false := by
      intro it hit
      rw [List.mem_iff_getElem?] at hit
      obtain ⟨i, hi⟩ := hit
      rw [List.getElem?_take] at hi
      by_cases hiK : i < K + 1
      · rw [if_pos hiK] at hi
        rw [Bool.eq_false_iff]
        intro htrue
        rw [key_lt_fmt_iff (hvalid_at i it hi) (hvalid_at K piv hpivEq)] at htrue
        by_cases hieq : i = K
        · subst hieq
          rw [hpivEq] at hi
          injection hi with hi
          subst hi
          rw [timeLt_irrefl] at htrue
          cases htrue
        · exact timeLt_asymm htrue (hdesc_at i K it piv (by omega) hi hpivEq)
      · rw [if_neg hiK] at hi
        cases hi
  -- the pivot is the head of the cached slice
    have hKget : ∃ h : K < its.length, its[K] = piv :=
      List.getElem?_eq_some_iff.mp hpivEq
    obtain ⟨hKlt, hKget⟩ := hKget
    have hslice_cons : slice = piv :: (its.drop (K + 1)).take (M - 1) := by
      rw [hslice, List.drop_eq_getElem_cons hKlt, hKget,
        show M = (M - 1) + 1 by omega, List.take_succ_cons]
      rfl
    have hfailpiv : bytesLt (cacheKey piv) (fmtRFC3339 piv.created) = false := by
      rw [Bool.eq_false_iff]
      intro htrue
      rw [key_lt_fmt_iff (hvalid_at K piv hpivEq) (hvalid_at K piv hpivEq),
        timeLt_irrefl] at htrue
      cases htrue
    have hrestkeys : ∀ x ∈ (its.drop (K + 1)).take (M - 1),
        bytesLt (cacheKey x) (fmtRFC3339 piv.created) = true := by
      intro x hx
      rw [List.mem_iff_getElem?] at hx
      obtain ⟨j, hj⟩ := hx
      rw [List.getElem?_take] at hj
      by_cases hjM : j < M - 1
      · rw [if_pos hjM, List.getElem?_drop] at hj
        rw [key_lt_fmt_iff (hvalid_at _ _ hj) (hvalid_at K piv hpivEq)]
        exact hdesc_at K (K + 1 + j) piv x (by omega) hpivEq hj
      · rw [if_neg hjM] at hj
        cases hj
    have hiter2 : bucketIter
        ((its.take (K + 1)).foldl
          (fun b it => { b with items := insertRec (cacheKey it) it b.items })
          { lastLimit := some (L : Int), items := pairs })
        (fmtRFC3339 piv.created)
        = (its.drop (K + 1)).take (M - 1) := by
      unfold bucketIter
      rw [filter_put_fold (fun k => bytesLt k (fmtRFC3339 piv.created))
        (its.take (K + 1))
        { lastLimit := some (L : Int), items := pairs } hfail]
      show ((pairs.filter
        (fun kv => bytesLt kv.1 (fmtRFC3339 piv.created))).reverse).map
          (fun kv => kv.2) = _
      rw [hpairs, List.filter_reverse, List.reverse_reverse, hslice_cons]
      simp only [List.map_cons, List.filter_cons]
      simp only [hfailpiv, Bool.false_eq_true, if_false]
      rw [List.filter_eq_self.mpr (by
        intro kv hkv
        rw [List.mem_map] at hkv
        obtain ⟨x, hx, rfl⟩ := hkv
        exact hrestkeys x hx)]
      rw [List.map_map]
      show List.map (fun it : Item => it)
        (List.take (M - 1) (List.drop (K + 1) its)) = _
      simp
    have hput : Put (some (some { lastLimit := some (L : Int), items := pairs }))
        (its.take (K + 1))
        = some (some ((its.take (K + 1)).foldl
            (fun b it => { b with items := insertRec (cacheKey it) it b.items })
            { lastLimit := some (L : Int), items := pairs })) := rfl
    have hIter : Iter
        (Put (some (some { lastLimit := some (L : Int), items := pairs }))
          (its.take (K + 1)))
        (fmtRFC3339 piv.created)
        (max 0 ((L : Int) - ((its.take (K + 1)).length : Int)))
        = Run.ok ((its.drop (K + 1)).take (L - (K + 1))) := by
      rw [hput, Iter_some, hiter2]
      have hn : (max 0 ((L : Int) - ((its.take (K + 1)).length : Int))).toNat
          = L - (K + 1) := by
        rw [hvidslen]
        omega
      rw [hn, List.take_take, Nat.min_eq_left (by omega)]
    rw [videos_unfold, hinv, hlive]
    show (match (its.take (K + 1)).getLast? with
      | none => _
      | some last => _ : Run (List Item) × Cache).1 = _
    rw [hlast]
    show (match Iter
        (Put (some (some { lastLimit := some (L : Int), items := pairs }))
          (its.take (K + 1)))
        (fmtRFC3339 piv.created)
        (max 0 ((L : Int) - ((its.take (K + 1)).length : Int))) with
      | Run.panic => _
      | Run.err => _
      | Run.ok fall => _ : Run (List Item) × Cache).1 = _
    rw [hIter]
    show Run.ok (its.take (K + 1) ++ (its.drop (K + 1)).take (L - (K + 1)))
      = Run.ok (its.take L)
    rw [← List.take_add, show (K + 1) + (L - (K + 1)) = L by omega]
  · exact List.Nodup.sublist (List.Sublist.map _ (List.take_sublist _ _)) hids

/-- C6 witness: the scenario at K = 1, M = 2, L = 2 — remote
`[itemA, itemB, itemC]` with `itemB` the pivot. -/
theorem pivot_scenario_returns_first_L_witness :
    (videos
        (some (some
          { lastLimit := some 5,
            items := ((([itemA, itemB, itemC].drop 1).take 2).map
              (fun it => (cacheKey it, it))).reverse }))
        ((2 : Nat) : Int) [itemA, itemB, itemC] false).1
      = Run.ok ([itemA, itemB, itemC].take 2) ∧
      liveLoop
          (some (some
            { lastLimit := some ((2 : Nat) : Int),
              items := ((([itemA, itemB, itemC].drop 1).take 2).map
                (fun it => (cacheKey it, it))).reverse }))
          (takeEvents ((2 : Nat) : Int) ([itemA, itemB, itemC].map Except.ok)) []
        = Run.ok ([itemA, itemB, itemC].take (1 + 1)) ∧
      (([itemA, itemB, itemC].take 2).map Item.id).Nodup :=
  pivot_scenario_returns_first_L [itemA, itemB, itemC] 1 2 2 5
    (by decide) (by decide) (by decide) (by decide) (by decide) (by decide)
    (by decide)
